import Mathlib

/-!
Verification of the pyhsmm state-sequence engine (src/internals/states.py).

Embedding conventions.  The source computes in log space with numpy
(np.logaddexp for binary log-add, np.logaddexp.reduce for log-sum-exp,
ordinary + for log-products).  We embed the computation in the linear
domain over exact rationals: a log-space value x is represented by its
exponential exp(x) : Q.  Under this exact-arithmetic correspondence
  logaddexp        becomes  +
  log-space +      becomes  *
  -infinity        becomes  0
  a log-space 0    becomes  1
and log-sum-exp reductions become finite sums.  The correspondence is a
bijection (log/exp), so every identity proved here about the linear
values states exactly the corresponding log-space identity of the
source, with floating point idealized as exact arithmetic.

Matrices such as betal, betastarl, alphal (T rows, state_dim columns)
are embedded as functions  Nat -> Nat -> Q  (row index, column index);
the in-place numpy writes of the backward and forward loops become
pointwise functional updates folded over the loop index list.
np.zeros initializations of log-space matrices are all-one matrices in
the linear domain.

Randomness: the callers of util.stats.sample_discrete feed it numpy
uniform draws; we model the random source as a stream  rng : Nat -> Q
of uniform numbers in [0,1), consumed at explicitly threaded positions.
Python assert statements and the DegenerateDistributionError raised by
sample_discrete are modeled with an Except monad.
-/

namespace PyHSMM

/-- Python error outcomes that the embedded code can surface:
DegenerateDistributionError from util.stats.sample_discrete, and
AssertionError from assert statements. -/
inductive PyErr where
  | degenerate : PyErr
  | assertionFailed : PyErr
deriving DecidableEq

/-- HSMMStatesPython.likelihood_block / likelihood_block_state:
np.sum(self.aBl[start:stop], axis=0) for column k.  Log-space sum of
rows start..stop-1 of aBl, hence a product in the linear domain. -/
def likelihood_block (aB : ℕ → ℕ → ℚ) (start stop k : ℕ) : ℚ :=
  ∏ s ∈ Finset.Ico start stop, aB s k

/-- One iteration of the shared HSMM-style backward loop body
(HSMMStatesPython.messages_backwards and its two structural variants
share these three lines verbatim):
  betastarl[t] is written from a variant-specific reduction F over the
  current betal matrix,
  betal[t-1] = logaddexp.reduce(betastarl[t] + Al, axis=1).
At t = 0 the numpy write betal[t-1] lands on row -1, i.e. row T-1 by
negative indexing; the final  betal[-1] = 0.  of the source resets that
row afterwards (see backpass). -/
def backstep (T K : ℕ) (A : ℕ → ℕ → ℚ) (F : (ℕ → ℕ → ℚ) → ℕ → ℕ → ℚ)
    (t : ℕ) (st : (ℕ → ℕ → ℚ) × (ℕ → ℕ → ℚ)) : (ℕ → ℕ → ℚ) × (ℕ → ℕ → ℚ) :=
  (fun u k => if u = (if t = 0 then T - 1 else t - 1)
      then ∑ j ∈ Finset.range K, A k j * F st.1 t j
      else st.1 u k,
   fun u k => if u = t then F st.1 t k else st.2 u k)

/-- The shared HSMM-style backward pass skeleton: betal and betastarl
start as log-space np.zeros (all-one linear matrices), the loop runs
t = T-1, T-2, ..., 0, and afterwards the source forces betal[-1] = 0
(linear: row T-1 becomes all ones).  Returns (betal, betastarl). -/
def backpass (T K : ℕ) (A : ℕ → ℕ → ℚ) (F : (ℕ → ℕ → ℚ) → ℕ → ℕ → ℚ) :
    (ℕ → ℕ → ℚ) × (ℕ → ℕ → ℚ) :=
  let res := (List.range T).foldl (fun st i => backstep T K A F (T - 1 - i) st)
    (fun _ _ => 1, fun _ _ => 1)
  (fun u k => if u = T - 1 then 1 else res.1 u k, res.2)

/-- The betastarl line of HSMMStatesPython.messages_backwards:
  np.logaddexp.reduce(betal[t:t+trunc] + self.cumulative_likelihoods(t,t+trunc)
                      + aDl[:min(trunc,T-t)], axis=0)
(the numpy slice betal[t:t+trunc] clips at row T, so the reduction runs
over d = 0, ..., min(trunc, T-t) - 1; cumulative_likelihoods row d is the
log-space cumulative sum over s = t..t+d, a running product here), then
  if T-t < trunc and self.censoring:
      np.logaddexp(betastarl[t], self.likelihood_block(t,None) + aDsl[T-t-1], betastarl[t]). -/
def hsmmBstarStep (T trunc : ℕ) (censoring : Bool) (aB aDl aDsl : ℕ → ℕ → ℚ) :
    (ℕ → ℕ → ℚ) → ℕ → ℕ → ℚ :=
  fun st t k =>
    (∑ d ∈ Finset.range (min trunc (T - t)),
        st (t + d) k * likelihood_block aB t (t + d + 1) k * aDl d k)
    + (if T - t < trunc ∧ censoring = true
        then likelihood_block aB t T k * aDsl (T - t - 1) k else 0)

/-- HSMMStatesPython.messages_backwards(Al, aDl, aDsl, trunc), with
T = aDl.shape[0] and the None default of trunc already resolved to T by
the caller (resample).  Returns (betal, betastarl). -/
def messages_backwards_hsmm (T K trunc : ℕ) (censoring : Bool)
    (A aB aDl aDsl : ℕ → ℕ → ℚ) : (ℕ → ℕ → ℚ) × (ℕ → ℕ → ℚ) :=
  backpass T K A (hsmmBstarStep T trunc censoring aB aDl aDsl)

/-- Reference solution of the HSMM backward recursion, defined by
well-founded recursion on T - t: row T-1 is the boundary (log 0, linear
1) and row t mixes the next segment start over states.  Used only to
characterize the loop above; the executable embedding is
messages_backwards_hsmm. -/
def betalRefHSMM (T K trunc : ℕ) (censoring : Bool)
    (A aB aDl aDsl : ℕ → ℕ → ℚ) (t k : ℕ) : ℚ :=
  if h : T - 1 ≤ t then 1
  else ∑ j ∈ Finset.range K, A k j *
    ((∑ d ∈ Finset.range (min trunc (T - (t + 1))),
        betalRefHSMM T K trunc censoring A aB aDl aDsl (t + 1 + d) j
          * likelihood_block aB (t + 1) (t + 1 + d + 1) j * aDl d j)
      + (if T - (t + 1) < trunc ∧ censoring = true
          then likelihood_block aB (t + 1) T j * aDsl (T - (t + 1) - 1) j else 0))
termination_by T - t
decreasing_by omega

/-- One iteration of HMMStatesPython.messages_backwards:
  np.logaddexp.reduce(Al + betal[t+1] + aBl[t+1], axis=1, out=betal[t])
i.e. row k of betal[t] reduces over the columns j. -/
def hmm_backstep (K : ℕ) (A aB : ℕ → ℕ → ℚ) (t : ℕ) (st : ℕ → ℕ → ℚ) : ℕ → ℕ → ℚ :=
  fun u k => if u = t
    then ∑ j ∈ Finset.range K, A k j * (st (t + 1) j * aB (t + 1) j)
    else st u k

/-- HMMStatesPython.messages_backwards(aBl): betal = np.zeros(aBl.shape)
(all-one linear matrix) and the loop runs t = T-2 down to 0; row T-1 is
never written, so the log-space boundary betal[T-1,:] = 0 is the initial
value. -/
def messages_backwards_hmm (K : ℕ) (A aB : ℕ → ℕ → ℚ) (T : ℕ) : ℕ → ℕ → ℚ :=
  (List.range (T - 1)).foldl (fun st i => hmm_backstep K A aB (T - 2 - i) st)
    (fun _ _ => 1)

/-- Reference solution of the HMM backward recursion. -/
def betalRefHMM (T K : ℕ) (A aB : ℕ → ℕ → ℚ) (t k : ℕ) : ℚ :=
  if h : T - 1 ≤ t then 1
  else ∑ j ∈ Finset.range K, A k j *
    (betalRefHMM T K A aB (t + 1) j * aB (t + 1) j)
termination_by T - t
decreasing_by omega

/-! ### Possible-changepoints (block) variant -/

/-- The per-block aggregated log-likelihood table of
HSMMStatesPossibleChangepoints.get_aBl:
  aBBl[idx] = aBl[start:stop].sum(0)  for the idx-th changepoint
(linear domain: a product over the block timesteps), while the method
itself returns None.  We embed the method as the pair
(returned value, stored aBBl attribute). -/
def block_get_aBl (aB : ℕ → ℕ → ℚ) (cps : List (ℕ × ℕ)) :
    Option (ℕ → ℕ → ℚ) × (ℕ → ℕ → ℚ) :=
  (none,
   fun idx k => likelihood_block aB (cps.getD idx (0, 0)).1 (cps.getD idx (0, 0)).2 k)

/-- blocklens of HSMMStatesPossibleChangepoints.__init__:
stop - start for each changepoint. -/
def block_lens (cps : List (ℕ × ℕ)) : ℕ → ℕ :=
  fun b => (cps.getD b (0, 0)).2 - (cps.getD b (0, 0)).1

/-- The cumulative block lengths  self.blocklens[tblock:].cumsum()
(entry i is the total length of blocks tblock..tblock+i). -/
def cumsums (blocklens : ℕ → ℕ) (tblock len : ℕ) : List ℕ :=
  (List.range len).map fun i => ∑ j ∈ Finset.range (i + 1), blocklens (tblock + j)

/-- possible_durations of the block backward/forward passes:
  possible_durations = self.blocklens[tblock:].cumsum()
  possible_durations = possible_durations[possible_durations
                         < max(trunc, possible_durations[0]+1)] -/
def possible_durs (blocklens : ℕ → ℕ) (Tblock tblock trunc : ℕ) : List ℕ :=
  let cums := cumsums blocklens tblock (Tblock - tblock)
  cums.filter fun d => d < max trunc (cums.headD 0 + 1)

/-- The betastarl line of HSMMStatesPossibleChangepoints.messages_backwards:
  normalizer = np.logaddexp.reduce(aDl[possible_durations-1], axis=0)
  np.logaddexp.reduce(betal[tblock:tblock+truncblock]
      + self.block_cumulative_likelihoods(tblock, tblock+truncblock, possible_durations)
      + aDl[possible_durations-1] - normalizer, axis=0, ...)
block_cumulative_likelihoods row i is the log-space cumulative sum of
aBBl rows tblock..tblock+i (a running product here).  No censoring term
is applied (the source carries a TODO for it). -/
def blockBstarStep (Tblock trunc : ℕ) (blocklens : ℕ → ℕ) (aBBl aDl : ℕ → ℕ → ℚ) :
    (ℕ → ℕ → ℚ) → ℕ → ℕ → ℚ :=
  fun st tblock k =>
    ∑ i ∈ Finset.range (possible_durs blocklens Tblock tblock trunc).length,
      st (tblock + i) k
        * (∏ b ∈ Finset.Ico tblock (tblock + i + 1), aBBl b k)
        * aDl ((possible_durs blocklens Tblock tblock trunc).getD i 0 - 1) k
        / (((possible_durs blocklens Tblock tblock trunc).map fun d => aDl (d - 1) k).sum)

/-- HSMMStatesPossibleChangepoints.messages_backwards(Al, aDl, aDsl, trunc):
the loop runs over blocks (Tblock = len(changepoints)) and the likelihood
table is the block-aggregated aBBl attribute stored by get_aBl.  The None
default of trunc is resolved to self.T by the caller. -/
def block_messages_backwards (Tblock K trunc : ℕ) (A : ℕ → ℕ → ℚ)
    (aB : ℕ → ℕ → ℚ) (cps : List (ℕ × ℕ)) (aDl : ℕ → ℕ → ℚ) :
    (ℕ → ℕ → ℚ) × (ℕ → ℕ → ℚ) :=
  backpass Tblock K A
    (blockBstarStep Tblock trunc (block_lens cps) (block_get_aBl aB cps).2 aDl)

/-- Reference solution of the block backward recursion. -/
def betalRefBlock (Tblock K trunc : ℕ) (blocklens : ℕ → ℕ)
    (A aBBl aDl : ℕ → ℕ → ℚ) (t k : ℕ) : ℚ :=
  if h : Tblock - 1 ≤ t then 1
  else ∑ j ∈ Finset.range K, A k j *
    (∑ i ∈ Finset.range (possible_durs blocklens Tblock (t + 1) trunc).length,
      betalRefBlock Tblock K trunc blocklens A aBBl aDl (t + 1 + i) j
        * (∏ b ∈ Finset.Ico (t + 1) (t + 1 + i + 1), aBBl b j)
        * aDl ((possible_durs blocklens Tblock (t + 1) trunc).getD i 0 - 1) j
        / (((possible_durs blocklens Tblock (t + 1) trunc).map fun d => aDl (d - 1) j).sum))
termination_by Tblock - t
decreasing_by omega

/-! ### HMM forward pass and brute-force path sum -/

/-- HMMStatesPython.messages_forwards(aBl).  As the source notes, the
method never uses self.T or self.data: T is aBl.shape[0], embedded here
by taking aBl as a list of rows and measuring its length.
  alphal[0] = np.log(pi_0) + aBl[0]
  alphal[t+1] = np.logaddexp.reduce(alphal[t] + Al.T, axis=1) + aBl[t+1]. -/
def messages_forwards (K : ℕ) (A : ℕ → ℕ → ℚ) (pi0 : ℕ → ℚ)
    (aBl : List (ℕ → ℚ)) : ℕ → ℕ → ℚ :=
  (List.range (aBl.length - 1)).foldl
    (fun st t => fun u k =>
      if u = t + 1
        then (∑ j ∈ Finset.range K, st t j * A j k) * (aBl.getD (t + 1) fun _ => 0) k
        else st u k)
    (fun u k => if u = 0 then pi0 k * (aBl.getD 0 fun _ => 0) k else 1)

/-- Reference solution of the forward recursion. -/
def alphaRec (K : ℕ) (A : ℕ → ℕ → ℚ) (pi0 : ℕ → ℚ) (row : ℕ → ℕ → ℚ) :
    ℕ → ℕ → ℚ
  | 0 => fun k => pi0 k * row 0 k
  | t + 1 => fun k => (∑ j ∈ Finset.range K, alphaRec K A pi0 row t j * A j k) * row (t + 1) k

/-- All state paths of a given length over states 0..K-1, in reversed
time order (the head of each path is the latest time index).  There are
K^T of them for length T. -/
def allPaths (K : ℕ) : ℕ → List (List ℕ)
  | 0 => [[]]
  | T + 1 => (List.range K).flatMap fun j => (allPaths K T).map fun p => j :: p

/-- The joint probability of one reversed path [s_t, s_(t-1), ..., s_0]:
pi0(s_0) times the transition factors times the per-step likelihoods.
Spec-side definition for the brute-force marginal check. -/
def pathWeight (A : ℕ → ℕ → ℚ) (pi0 : ℕ → ℚ) (row : ℕ → ℕ → ℚ) :
    ℕ → List ℕ → ℚ
  | _, [] => 1
  | t, s :: rest =>
    match rest with
    | [] => pi0 s * row t s
    | s2 :: _ => pathWeight A pi0 row (t - 1) rest * A s2 s * row t s

/-- Brute-force log marginal likelihood (linear domain): the sum of the
joint weights of all K^T paths. -/
def hmmBruteForce (K : ℕ) (A : ℕ → ℕ → ℚ) (pi0 : ℕ → ℚ) (aBl : List (ℕ → ℚ)) : ℚ :=
  ((allPaths K aBl.length).map
    (pathWeight A pi0 (fun t k => (aBl.getD t fun _ => 0) k) (aBl.length - 1))).sum

/-! ### Sampling primitives and forward sampling -/

/-- Inverse-CDF index selection: the first index whose cumulative weight
strictly exceeds the target. -/
def cdfIndex (w : List ℚ) (target : ℚ) : ℕ :=
  match w with
  | [] => 0
  | x :: rest => if target < x then 0 else 1 + cdfIndex rest (target - x)

/-- Modelled from the spec: util.stats.sample_discrete is imported by the
source but its module is not under src.  Per the specification it draws
an index proportional to a nonnegative, not-necessarily-normalized weight
vector (normalization is internal) and fails with
DegenerateDistributionError when all weights are exactly zero.  We
realize the proportional draw by inverse CDF against one uniform number
u in [0,1). -/
def sample_discrete (w : List ℚ) (u : ℚ) : Except PyErr ℕ :=
  if h : ∀ x ∈ w, x = 0 then .error .degenerate
  else .ok (cdfIndex w (u * w.sum))

/-- Modelled from the spec: util.stats.sample_discrete_from_log (module
not under src) subtracts the max log-weight before exponentiating, then
delegates to sample_discrete.  In the linear domain the max-shift is a
division by the maximum weight. -/
def sample_discrete_from_log (w : List ℚ) (u : ℚ) : Except PyErr ℕ :=
  sample_discrete (w.map fun x => x / w.foldr max 0) u

/-- One timestep of HMMStatesPython.sample_forwards:
  logdomain = betal[idx] + aBl[idx]
  logdomain[nextstate_unsmoothed == 0] = -inf
  sample_discrete(nextstate_unsmoothed * np.exp(logdomain - np.amax(logdomain)))
In the linear domain the masking writes a 0 where the pending
distribution is 0, and the max-shift is a positive rescaling that
sample_discrete (which normalizes internally) is invariant under, so it
is omitted here. -/
def hmm_sample_step (K : ℕ) (pending betal_t aB_t : ℕ → ℚ) (u : ℚ) : Except PyErr ℕ :=
  sample_discrete
    ((List.range K).map fun k =>
      pending k * (if pending k = 0 then 0 else betal_t k * aB_t k)) u

/-- The loop of HMMStatesPython.sample_forwards: T steps, the pending
distribution starts at pi_0 and becomes row state of A after each draw;
one uniform number is consumed per timestep. -/
def hmm_sample_forwards_go (K : ℕ) (A : ℕ → ℕ → ℚ) (betal aB : ℕ → ℕ → ℚ)
    (rng : ℕ → ℚ) : ℕ → ℕ → (ℕ → ℚ) → List ℕ → Except PyErr (List ℕ)
  | 0, _, _, acc => .ok acc.reverse
  | fuel + 1, idx, pending, acc => do
    let s ← hmm_sample_step K pending (betal idx) (aB idx) (rng idx)
    hmm_sample_forwards_go K A betal aB rng fuel (idx + 1) (fun j => A s j) (s :: acc)

/-- HMMStatesPython.sample_forwards(aBl, betal). -/
def hmm_sample_forwards (T K : ℕ) (A : ℕ → ℕ → ℚ) (pi0 : ℕ → ℚ)
    (betal aB : ℕ → ℕ → ℚ) (rng : ℕ → ℚ) : Except PyErr (List ℕ) :=
  hmm_sample_forwards_go K A betal aB rng T 0 pi0 []

/-- The state draw of HSMMStatesPython.sample_forwards:
  logdomain = betastarl[idx] - np.amax(betastarl[idx])
  nextstate_distr = np.exp(logdomain) * nextstate_unsmoothed
  if (nextstate_distr == 0.).all():
      nextstate_distr = np.exp(logdomain)      # follow the messages
  state = sample_discrete(nextstate_distr)
The max-shift is again a positive rescaling that sample_discrete is
invariant under and is omitted in the linear domain. -/
def hsmm_sample_state (K : ℕ) (bstar_t pending : ℕ → ℚ) (u : ℚ) : Except PyErr ℕ :=
  if h : ∀ k ∈ List.range K, bstar_t k * pending k = 0 then
    sample_discrete ((List.range K).map fun k => bstar_t k) u
  else
    sample_discrete ((List.range K).map fun k => bstar_t k * pending k) u

/-- The duration loop of HSMMStatesPython.sample_forwards (the
  while durprob > 0:
loop).  The dur variable is one less than the duration under
consideration; apmf[state, dur] = dur_distns[state].pmf(dur+1) is
inlined as durpmf state (dur+1) for dur < T and 1 past the table.  In
the censoring branch the source draws the overflow from
dur_distn.pmf(np.arange(dur+1, 3*T)) where dur_distn is the leftover
variable of the apmf construction loop
  for state_idx, dur_distn in enumerate(self.model.dur_distns)
i.e. the duration distribution of the LAST state, index state_dim - 1 —
not of the sampled state.  The fuel argument realizes the
  assert dur < 2*T
infinite-loop check of the source (dur grows by exactly 1 per
iteration): exhausted fuel is the AssertionError. -/
def sample_dur_go (T idx state K : ℕ) (durpmf : ℕ → ℕ → ℚ)
    (aB betal bstar : ℕ → ℕ → ℚ) (censoring : Bool) (rng : ℕ → ℚ) :
    ℕ → ℚ → ℕ → ℕ → Except PyErr (ℕ × ℕ)
  | 0, _, _, _ => .error .assertionFailed
  | fuel + 1, durprob, dur, n =>
    if durprob ≤ 0 then .ok (dur, n)
    else if (if dur < T then durpmf state (dur + 1) else 1) = 0 then
      sample_dur_go T idx state K durpmf aB betal bstar censoring rng fuel durprob (dur + 1) n
    else if idx + dur < T then
      sample_dur_go T idx state K durpmf aB betal bstar censoring rng fuel
        (durprob -
          likelihood_block aB idx (idx + dur + 1) state * betal (idx + dur) state
            / bstar idx state * (if dur < T then durpmf state (dur + 1) else 1))
        (dur + 1) n
    else if censoring then do
      let i ← sample_discrete
        ((List.range (3 * T - (dur + 1))).map fun v => durpmf (K - 1) (dur + 1 + v)) (rng n)
      .ok (dur + i, n + 1)
    else .ok (dur + 1, n)

/-- Modelled from the spec: the duration sampler as the specification
describes it — identical to sample_dur_go except that the censored
overflow is drawn from the tail of the duration distribution of the
state being sampled (pmf(d | k)), not of the last state. -/
def sample_dur_go_intended (T idx state K : ℕ) (durpmf : ℕ → ℕ → ℚ)
    (aB betal bstar : ℕ → ℕ → ℚ) (censoring : Bool) (rng : ℕ → ℚ) :
    ℕ → ℚ → ℕ → ℕ → Except PyErr (ℕ × ℕ)
  | 0, _, _, _ => .error .assertionFailed
  | fuel + 1, durprob, dur, n =>
    if durprob ≤ 0 then .ok (dur, n)
    else if (if dur < T then durpmf state (dur + 1) else 1) = 0 then
      sample_dur_go_intended T idx state K durpmf aB betal bstar censoring rng fuel durprob (dur + 1) n
    else if idx + dur < T then
      sample_dur_go_intended T idx state K durpmf aB betal bstar censoring rng fuel
        (durprob -
          likelihood_block aB idx (idx + dur + 1) state * betal (idx + dur) state
            / bstar idx state * (if dur < T then durpmf state (dur + 1) else 1))
        (dur + 1) n
    else if censoring then do
      let i ← sample_discrete
        ((List.range (3 * T - (dur + 1))).map fun v => durpmf state (dur + 1 + v)) (rng n)
      .ok (dur + i, n + 1)
    else .ok (dur + 1, n)

/-- Entry to the duration loop: durprob = random() (the uniform draw u),
dur = 0, and fuel 2*T mirroring the assert dur < 2*T bound. -/
def sample_dur (T idx state K : ℕ) (durpmf : ℕ → ℕ → ℚ)
    (aB betal bstar : ℕ → ℕ → ℚ) (censoring : Bool) (rng : ℕ → ℚ)
    (u : ℚ) (n : ℕ) : Except PyErr (ℕ × ℕ) :=
  sample_dur_go T idx state K durpmf aB betal bstar censoring rng (2 * T) u 0 n

/-- Modelled from the spec: entry to the intended duration loop. -/
def sample_dur_intended (T idx state K : ℕ) (durpmf : ℕ → ℕ → ℚ)
    (aB betal bstar : ℕ → ℕ → ℚ) (censoring : Bool) (rng : ℕ → ℚ)
    (u : ℚ) (n : ℕ) : Except PyErr (ℕ × ℕ) :=
  sample_dur_go_intended T idx state K durpmf aB betal bstar censoring rng (2 * T) u 0 n

/-- The segment loop of HSMMStatesPython.sample_forwards:
  while idx < T:  sample state, assert no repeat, sample duration,
  assert dur > 0, record the segment, advance.
One uniform number is consumed by the state draw and one by durprob =
random(); the duration loop may consume one more (censoring overflow).
Returns (stateseq_norep, durations) as accumulated by the source (the
source appends to both lists once per segment). -/
def hsmm_sample_forwards_go (T K : ℕ) (A : ℕ → ℕ → ℚ) (durpmf : ℕ → ℕ → ℚ)
    (aB betal bstar : ℕ → ℕ → ℚ) (censoring : Bool) (rng : ℕ → ℚ) :
    ℕ → ℕ → (ℕ → ℚ) → List ℕ → List ℕ → ℕ → Except PyErr (List ℕ × List ℕ)
  | 0, idx, _, norep, durs, _ =>
    if T ≤ idx then .ok (norep.reverse, durs.reverse) else .error .assertionFailed
  | fuel + 1, idx, pending, norep, durs, n =>
    if T ≤ idx then .ok (norep.reverse, durs.reverse)
    else do
      let state ← hsmm_sample_state K (bstar idx) pending (rng n)
      if norep.head? = some state then .error .assertionFailed
      else do
        let r ← sample_dur T idx state K durpmf aB betal bstar censoring rng (rng (n + 1)) (n + 2)
        if r.1 = 0 then .error .assertionFailed
        else
          hsmm_sample_forwards_go T K A durpmf aB betal bstar censoring rng fuel
            (idx + r.1) (fun j => A state j) (state :: norep) (r.1 :: durs) r.2

/-- HSMMStatesPython.sample_forwards(betal, betastarl).  Fuel T is
enough: each completed segment advances idx by at least 1. -/
def hsmm_sample_forwards (T K : ℕ) (A : ℕ → ℕ → ℚ) (pi0 : ℕ → ℚ)
    (durpmf : ℕ → ℕ → ℚ) (aB betal bstar : ℕ → ℕ → ℚ) (censoring : Bool)
    (rng : ℕ → ℚ) : Except PyErr (List ℕ × List ℕ) :=
  hsmm_sample_forwards_go T K A durpmf aB betal bstar censoring rng T 0 pi0 [] [] 0

/-- The block loop of HSMMStatesPossibleChangepoints.sample_forwards:
  sample the state from exp(betastarl[tblock]-max) * pending
  (no all-zero fallback in this variant),
  if truncblock > 1: blockdur = sample_discrete_from_log(logpmf) + 1
  with logpmf = aDl[possible_durations-1, state] + block cumulative
  likelihoods + betal[...] - betastarl[tblock, state], else blockdur = 1.
Returns the block state sequence (blockstateseq); the trailing expansion
to per-timestep stateseq and its run-length re-derivation are pure
postprocessing of this list. -/
def block_sample_forwards_go (Tblock K trunc : ℕ) (A : ℕ → ℕ → ℚ)
    (aDl : ℕ → ℕ → ℚ) (blocklens : ℕ → ℕ) (aBBl betal bstar : ℕ → ℕ → ℚ)
    (rng : ℕ → ℚ) : ℕ → ℕ → (ℕ → ℚ) → List ℕ → ℕ → Except PyErr (List ℕ)
  | 0, tblock, _, acc, _ =>
    if Tblock ≤ tblock then .ok acc.reverse else .error .assertionFailed
  | fuel + 1, tblock, pending, acc, n =>
    if Tblock ≤ tblock then .ok acc.reverse
    else do
      let state ← sample_discrete
        ((List.range K).map fun k => bstar tblock k * pending k) (rng n)
      let r ←
        (if 1 < (possible_durs blocklens Tblock tblock trunc).length then do
          let i ← sample_discrete_from_log
            ((List.range (possible_durs blocklens Tblock tblock trunc).length).map fun v =>
              aDl ((possible_durs blocklens Tblock tblock trunc).getD v 0 - 1) state
                * (∏ b ∈ Finset.Ico tblock (tblock + v + 1), aBBl b state)
                * betal (tblock + v) state / bstar tblock state) (rng (n + 1))
          pure (i + 1, n + 2)
        else pure (1, n + 1))
      block_sample_forwards_go Tblock K trunc A aDl blocklens aBBl betal bstar rng fuel
        (tblock + r.1) (fun j => A state j) (List.replicate r.1 state ++ acc) r.2

/-- HSMMStatesPossibleChangepoints.sample_forwards(betal, betastarl),
with the aBBl table flowing in from get_aBl exactly as in the source
(the parent resample stores aBl = None and this variant reads only the
block-aggregated table). -/
def block_sample_forwards (Tblock K trunc : ℕ) (A : ℕ → ℕ → ℚ) (pi0 : ℕ → ℚ)
    (aB : ℕ → ℕ → ℚ) (cps : List (ℕ × ℕ)) (aDl : ℕ → ℕ → ℚ)
    (betal bstar : ℕ → ℕ → ℚ) (rng : ℕ → ℚ) : Except PyErr (List ℕ) :=
  block_sample_forwards_go Tblock K trunc A aDl (block_lens cps)
    (block_get_aBl aB cps).2 betal bstar rng Tblock 0 pi0 [] 0

/-- The aBl attribute stored by the inherited HSMMStatesPython.resample
(self.aBl = self.get_aBl(data)) when the instance is a
HSMMStatesPossibleChangepoints: the overridden get_aBl returns None. -/
def block_resample_aBl (aB : ℕ → ℕ → ℚ) (cps : List (ℕ × ℕ)) :
    Option (ℕ → ℕ → ℚ) :=
  (block_get_aBl aB cps).1

/-! ## Theorems -/

/-! ### Monad and list helpers -/

theorem except_bind_ok {ε α β : Type} (a : α) (f : α → Except ε β) :
    (Except.ok a >>= f : Except ε β) = f a := rfl

theorem except_bind_error {ε α β : Type} (e : ε) (f : α → Except ε β) :
    ((Except.error e : Except ε α) >>= f) = Except.error e := rfl

theorem except_pure_eq {ε α : Type} (a : α) : (pure a : Except ε α) = Except.ok a := rfl

/-! ### List helpers -/

theorem list_sum_range_map (n : ℕ) (f : ℕ → ℚ) :
    ((List.range n).map f).sum = ∑ j ∈ Finset.range n, f j := by
  induction n with
  | zero => simp
  | succ m ih => rw [List.range_succ, Finset.sum_range_succ]; simp [ih]

theorem list_sum_map_flatMap {α β : Type} (l : List α) (g : α → List β) (f : β → ℚ) :
    ((l.flatMap g).map f).sum = (l.map fun a => (((g a).map f).sum)).sum := by
  induction l with
  | nil => simp
  | cons a as ih => simp [ih]

theorem list_sum_map_mul_right {α : Type} (l : List α) (f : α → ℚ) (c : ℚ) :
    (l.map fun x => f x * c).sum = (l.map f).sum * c := by
  induction l with
  | nil => simp
  | cons a as ih => simp [ih, add_mul]

theorem foldl_range_succ {α : Type} (f : α → ℕ → α) (init : α) (i : ℕ) :
    (List.range (i + 1)).foldl f init = f ((List.range i).foldl f init) i := by
  rw [List.range_succ, List.foldl_append]
  rfl

/-! ### Characterization of the shared backward-pass skeleton -/

theorem backpass_invariant (T K : ℕ) (A : ℕ → ℕ → ℚ)
    (F : (ℕ → ℕ → ℚ) → ℕ → ℕ → ℚ) (betalRef : ℕ → ℕ → ℚ)
    (H1 : ∀ u k, T - 1 ≤ u → betalRef u k = 1)
    (H2 : ∀ u k, u < T - 1 →
      betalRef u k = ∑ j ∈ Finset.range K, A k j * F betalRef (u + 1) j)
    (H3 : ∀ t, t < T → ∀ st st2 : ℕ → ℕ → ℚ,
      (∀ u k, t ≤ u → u < T → st u k = st2 u k) → ∀ k, F st t k = F st2 t k) :
    ∀ i, i ≤ T →
      (∀ u k, T - i - 1 ≤ u → u < T - 1 →
        ((List.range i).foldl (fun st i2 => backstep T K A F (T - 1 - i2) st)
          (fun _ _ => 1, fun _ _ => 1)).1 u k = betalRef u k)
      ∧ (i < T → ∀ u k, T - 1 ≤ u →
        ((List.range i).foldl (fun st i2 => backstep T K A F (T - 1 - i2) st)
          (fun _ _ => 1, fun _ _ => 1)).1 u k = 1)
      ∧ (∀ u k, T - i ≤ u → u < T →
        ((List.range i).foldl (fun st i2 => backstep T K A F (T - 1 - i2) st)
          (fun _ _ => 1, fun _ _ => 1)).2 u k = F betalRef u k) := by
  intro i
  induction i with
  | zero =>
    intro _
    refine ⟨fun u k h1 h2 => absurd h1 (by omega), fun _ u k _ => rfl,
      fun u k h1 h2 => absurd h1 (by omega)⟩
  | succ i ih =>
    intro hiT
    have hi : i ≤ T := by omega
    obtain ⟨iha, ihb, ihc⟩ := ih hi
    have hiltT : i < T := by omega
    rw [foldl_range_succ]
    set S := (List.range i).foldl (fun st i2 => backstep T K A F (T - 1 - i2) st)
      (fun _ _ => 1, fun _ _ => 1) with hS
    set t := T - 1 - i with ht
    have htT : t < T := by omega
    have hagree : ∀ u k, t ≤ u → u < T → S.1 u k = betalRef u k := by
      intro u k hu1 hu2
      rcases Nat.lt_or_ge u (T - 1) with hu3 | hu3
      · exact iha u k (by omega) hu3
      · have hu4 : u = T - 1 := by omega
        rw [ihb hiltT u k (by omega), H1 u k (by omega)]
    have hF : ∀ k, F S.1 t k = F betalRef t k := by
      intro k
      exact H3 t htT S.1 betalRef hagree k
    refine ⟨?_, ?_, ?_⟩
    · intro u k hu1 hu2
      show (if u = (if t = 0 then T - 1 else t - 1)
          then ∑ j ∈ Finset.range K, A k j * F S.1 t j else S.1 u k) = betalRef u k
      by_cases ht0 : t = 0
      · rw [if_pos ht0]
        rw [if_neg (by omega)]
        exact iha u k (by omega) hu2
      · rw [if_neg ht0]
        by_cases hu : u = t - 1
        · rw [if_pos hu, hu]
          have h2 := H2 (t - 1) k (by omega)
          have htt : t - 1 + 1 = t := by omega
          rw [htt] at h2
          rw [h2]
          exact Finset.sum_congr rfl fun j _ => by rw [hF j]
        · rw [if_neg hu]
          exact iha u k (by omega) hu2
    · intro hi1T u k hu
      show (if u = (if t = 0 then T - 1 else t - 1)
          then ∑ j ∈ Finset.range K, A k j * F S.1 t j else S.1 u k) = 1
      have ht1 : t ≠ 0 := by omega
      rw [if_neg ht1, if_neg (by omega)]
      exact ihb hiltT u k hu
    · intro u k hu1 hu2
      show (if u = t then F S.1 t k else S.2 u k) = F betalRef u k
      by_cases hu : u = t
      · rw [if_pos hu, hu]
        exact hF k
      · rw [if_neg hu]
        exact ihc u k (by omega) hu2

theorem backpass_eq_ref (T K : ℕ) (A : ℕ → ℕ → ℚ)
    (F : (ℕ → ℕ → ℚ) → ℕ → ℕ → ℚ) (betalRef : ℕ → ℕ → ℚ)
    (H1 : ∀ u k, T - 1 ≤ u → betalRef u k = 1)
    (H2 : ∀ u k, u < T - 1 →
      betalRef u k = ∑ j ∈ Finset.range K, A k j * F betalRef (u + 1) j)
    (H3 : ∀ t, t < T → ∀ st st2 : ℕ → ℕ → ℚ,
      (∀ u k, t ≤ u → u < T → st u k = st2 u k) → ∀ k, F st t k = F st2 t k) :
    ∀ t k, t < T →
      (backpass T K A F).1 t k = betalRef t k
      ∧ (backpass T K A F).2 t k = F betalRef t k := by
  intro t k htT
  obtain ⟨ha, _, hc⟩ := backpass_invariant T K A F betalRef H1 H2 H3 T (le_refl T)
  constructor
  · show (if t = T - 1 then 1
        else ((List.range T).foldl (fun st i2 => backstep T K A F (T - 1 - i2) st)
          (fun _ _ => 1, fun _ _ => 1)).1 t k) = betalRef t k
    by_cases htb : t = T - 1
    · rw [if_pos htb, H1 t k (by omega)]
    · rw [if_neg htb]
      exact ha t k (by omega) (by omega)
  · exact hc t k (by omega) htT

theorem backpass_recurrence (T K : ℕ) (A : ℕ → ℕ → ℚ)
    (F : (ℕ → ℕ → ℚ) → ℕ → ℕ → ℚ) (betalRef : ℕ → ℕ → ℚ)
    (H1 : ∀ u k, T - 1 ≤ u → betalRef u k = 1)
    (H2 : ∀ u k, u < T - 1 →
      betalRef u k = ∑ j ∈ Finset.range K, A k j * F betalRef (u + 1) j)
    (H3 : ∀ t, t < T → ∀ st st2 : ℕ → ℕ → ℚ,
      (∀ u k, t ≤ u → u < T → st u k = st2 u k) → ∀ k, F st t k = F st2 t k) :
    ∀ t k, t < T →
      (backpass T K A F).2 t k = F (backpass T K A F).1 t k
      ∧ (t < T - 1 → (backpass T K A F).1 t k
          = ∑ j ∈ Finset.range K, A k j * (backpass T K A F).2 (t + 1) j)
      ∧ (t = T - 1 → (backpass T K A F).1 t k = 1) := by
  intro t k htT
  have heq := backpass_eq_ref T K A F betalRef H1 H2 H3
  refine ⟨?_, ?_, ?_⟩
  · rw [(heq t k htT).2]
    refine (H3 t htT (backpass T K A F).1 betalRef ?_ k).symm
    intro u k2 hu1 hu2
    exact (heq u k2 hu2).1
  · intro ht1
    rw [(heq t k htT).1, H2 t k ht1]
    refine Finset.sum_congr rfl fun j _ => ?_
    rw [(heq (t + 1) j (by omega)).2]
  · intro ht1
    rw [(heq t k htT).1]
    exact H1 t k (by omega)

theorem backpass_congr (T K : ℕ) (A : ℕ → ℕ → ℚ)
    (F F2 : (ℕ → ℕ → ℚ) → ℕ → ℕ → ℚ)
    (h : ∀ st t k, t < T → F st t k = F2 st t k) :
    backpass T K A F = backpass T K A F2 := by
  have key : ∀ i, i ≤ T →
      (List.range i).foldl (fun st i2 => backstep T K A F (T - 1 - i2) st)
        (fun _ _ => 1, fun _ _ => 1)
      = (List.range i).foldl (fun st i2 => backstep T K A F2 (T - 1 - i2) st)
        (fun _ _ => 1, fun _ _ => 1) := by
    intro i
    induction i with
    | zero => intro _; rfl
    | succ i ih =>
      intro hiT
      rw [foldl_range_succ, foldl_range_succ, ih (by omega)]
      have htT : T - 1 - i < T := by omega
      set S2 := (List.range i).foldl (fun st i2 => backstep T K A F2 (T - 1 - i2) st)
        (fun _ _ => 1, fun _ _ => 1) with hS2
      have hFk : ∀ j, F S2.1 (T - 1 - i) j = F2 S2.1 (T - 1 - i) j :=
        fun j => h _ _ j htT
      show backstep T K A F (T - 1 - i) S2 = backstep T K A F2 (T - 1 - i) S2
      unfold backstep
      refine Prod.ext ?_ ?_
      · funext u k
        simp only [hFk]
      · funext u k
        simp only [hFk]
  unfold backpass
  rw [key T (le_refl T)]

/-! ### The exact HSMM backward pass satisfies its recurrences -/

theorem betalRefHSMM_boundary (T K trunc : ℕ) (censoring : Bool)
    (A aB aDl aDsl : ℕ → ℕ → ℚ) :
    ∀ u k, T - 1 ≤ u → betalRefHSMM T K trunc censoring A aB aDl aDsl u k = 1 := by
  intro u k hu
  rw [betalRefHSMM]
  rw [dif_pos hu]

theorem betalRefHSMM_step (T K trunc : ℕ) (censoring : Bool)
    (A aB aDl aDsl : ℕ → ℕ → ℚ) :
    ∀ u k, u < T - 1 →
      betalRefHSMM T K trunc censoring A aB aDl aDsl u k
        = ∑ j ∈ Finset.range K, A k j *
            hsmmBstarStep T trunc censoring aB aDl aDsl
              (betalRefHSMM T K trunc censoring A aB aDl aDsl) (u + 1) j := by
  intro u k hu
  rw [betalRefHSMM]
  rw [dif_neg (by omega)]
  rfl

theorem hsmmBstarStep_local (T K trunc : ℕ) (censoring : Bool)
    (aB aDl aDsl : ℕ → ℕ → ℚ) :
    ∀ t, t < T → ∀ st st2 : ℕ → ℕ → ℚ,
      (∀ u k, t ≤ u → u < T → st u k = st2 u k) → ∀ k,
      hsmmBstarStep T trunc censoring aB aDl aDsl st t k
        = hsmmBstarStep T trunc censoring aB aDl aDsl st2 t k := by
  intro t ht st st2 hagree k
  unfold hsmmBstarStep
  congr 1
  refine Finset.sum_congr rfl fun d hd => ?_
  rw [Finset.mem_range] at hd
  rw [hagree (t + d) k (by omega) (by omega)]

theorem hsmm_backwards_recurrence (T K trunc : ℕ) (censoring : Bool)
    (A aB aDl aDsl : ℕ → ℕ → ℚ) :
    ∀ t k, t < T →
      (messages_backwards_hsmm T K trunc censoring A aB aDl aDsl).2 t k
        = hsmmBstarStep T trunc censoring aB aDl aDsl
            (messages_backwards_hsmm T K trunc censoring A aB aDl aDsl).1 t k
      ∧ (t < T - 1 → (messages_backwards_hsmm T K trunc censoring A aB aDl aDsl).1 t k
          = ∑ j ∈ Finset.range K, A k j *
              (messages_backwards_hsmm T K trunc censoring A aB aDl aDsl).2 (t + 1) j)
      ∧ (t = T - 1 →
          (messages_backwards_hsmm T K trunc censoring A aB aDl aDsl).1 t k = 1) := by
  exact backpass_recurrence T K A (hsmmBstarStep T trunc censoring aB aDl aDsl)
    (betalRefHSMM T K trunc censoring A aB aDl aDsl)
    (betalRefHSMM_boundary T K trunc censoring A aB aDl aDsl)
    (betalRefHSMM_step T K trunc censoring A aB aDl aDsl)
    (fun t ht st st2 hagree k =>
      hsmmBstarStep_local T K trunc censoring aB aDl aDsl t ht st st2 hagree k)

/-! ### The HMM backward pass satisfies its recurrence -/

theorem betalRefHMM_boundary (T K : ℕ) (A aB : ℕ → ℕ → ℚ) :
    ∀ u k, T - 1 ≤ u → betalRefHMM T K A aB u k = 1 := by
  intro u k hu
  rw [betalRefHMM]
  rw [dif_pos hu]

theorem hmm_backpass_invariant (T K : ℕ) (A aB : ℕ → ℕ → ℚ) :
    ∀ i, i ≤ T - 1 →
      (∀ u k, T - 1 - i ≤ u → u < T - 1 →
        ((List.range i).foldl (fun st i2 => hmm_backstep K A aB (T - 2 - i2) st)
          (fun _ _ => 1)) u k = betalRefHMM T K A aB u k)
      ∧ (∀ u k, T - 1 ≤ u →
        ((List.range i).foldl (fun st i2 => hmm_backstep K A aB (T - 2 - i2) st)
          (fun _ _ => 1)) u k = 1) := by
  intro i
  induction i with
  | zero =>
    intro _
    exact ⟨fun u k h1 h2 => absurd h1 (by omega), fun u k _ => rfl⟩
  | succ i ih =>
    intro hiT
    obtain ⟨iha, ihb⟩ := ih (by omega)
    rw [foldl_range_succ]
    set S := (List.range i).foldl (fun st i2 => hmm_backstep K A aB (T - 2 - i2) st)
      (fun _ _ => 1) with hS
    set t := T - 2 - i with ht
    have hnext : ∀ j, S (t + 1) j = betalRefHMM T K A aB (t + 1) j := by
      intro j
      rcases Nat.lt_or_ge (t + 1) (T - 1) with hv | hv
      · exact iha (t + 1) j (by omega) hv
      · rw [ihb (t + 1) j hv, betalRefHMM_boundary T K A aB (t + 1) j hv]
    constructor
    · intro u k hu1 hu2
      show (if u = t then ∑ j ∈ Finset.range K, A k j * (S (t + 1) j * aB (t + 1) j)
          else S u k) = betalRefHMM T K A aB u k
      by_cases hu : u = t
      · rw [if_pos hu, hu]
        rw [betalRefHMM]
        rw [dif_neg (by omega)]
        refine Finset.sum_congr rfl fun j _ => ?_
        rw [hnext j]
      · rw [if_neg hu]
        exact iha u k (by omega) hu2
    · intro u k hu
      show (if u = t then ∑ j ∈ Finset.range K, A k j * (S (t + 1) j * aB (t + 1) j)
          else S u k) = 1
      rw [if_neg (by omega)]
      exact ihb u k hu

theorem hmm_backwards_eq_ref (K : ℕ) (A aB : ℕ → ℕ → ℚ) (T : ℕ) :
    ∀ u k, u < T → messages_backwards_hmm K A aB T u k = betalRefHMM T K A aB u k := by
  intro u k hu
  obtain ⟨ha, hb⟩ := hmm_backpass_invariant T K A aB (T - 1) (le_refl (T - 1))
  rcases Nat.lt_or_ge u (T - 1) with hv | hv
  · exact ha u k (by omega) hv
  · unfold messages_backwards_hmm
    rw [hb u k hv, betalRefHMM_boundary T K A aB u k hv]

/-! ### C1 and C5 -/

/-- C1: for every t < T and state k, the betastarl matrix returned by the
HSMM backward pass satisfies
  betastarl[t,k] = logsumexp over d in 0..min(trunc,T-t)-1 of
    (betal[t+d,k] + sum over s in t..t+d of aBl[s,k] + aDl[d,k]),
and exactly when censoring is enabled and T-t < trunc the censored term
likelihood_block(t,T,k) + aDsl[T-t-1,k] is additionally log-added (in the
linear domain: sums of products, with the censored product added).  betal
and betastarl are the matrices returned by messages_backwards. -/
theorem hsmm_backwards_betastar_formula (T K trunc : ℕ) (censoring : Bool)
    (A aB aDl aDsl : ℕ → ℕ → ℚ) (t k : ℕ) (ht : t < T) :
    (messages_backwards_hsmm T K trunc censoring A aB aDl aDsl).2 t k
      = (∑ d ∈ Finset.range (min trunc (T - t)),
          (messages_backwards_hsmm T K trunc censoring A aB aDl aDsl).1 (t + d) k
            * (∏ s ∈ Finset.Ico t (t + d + 1), aB s k) * aDl d k)
        + (if T - t < trunc ∧ censoring = true
            then (∏ s ∈ Finset.Ico t T, aB s k) * aDsl (T - t - 1) k else 0) := by
  have h := (hsmm_backwards_recurrence T K trunc censoring A aB aDl aDsl t k ht).1
  rw [h]
  unfold hsmmBstarStep likelihood_block
  rfl

/-- C1 witness at a concrete instance (T = 3, K = 2, trunc = 2,
censoring enabled, t = 1). -/
theorem hsmm_backwards_betastar_formula_witness :
    1 < 3 ∧
    (messages_backwards_hsmm 3 2 2 true (fun _ _ => (1 : ℚ)/2) (fun _ _ => (1 : ℚ)/3)
        (fun _ _ => (1 : ℚ)/4) (fun _ _ => (1 : ℚ)/5)).2 1 0
      = (∑ d ∈ Finset.range (min 2 (3 - 1)),
          (messages_backwards_hsmm 3 2 2 true (fun _ _ => (1 : ℚ)/2) (fun _ _ => (1 : ℚ)/3)
              (fun _ _ => (1 : ℚ)/4) (fun _ _ => (1 : ℚ)/5)).1 (1 + d) 0
            * (∏ s ∈ Finset.Ico 1 (1 + d + 1), (1 : ℚ)/3) * ((1 : ℚ)/4))
        + (if 3 - 1 < 2 ∧ true = true
            then (∏ s ∈ Finset.Ico 1 3, (1 : ℚ)/3) * ((1 : ℚ)/5) else 0) :=
  ⟨by decide,
    hsmm_backwards_betastar_formula 3 2 2 true (fun _ _ => (1 : ℚ)/2)
      (fun _ _ => (1 : ℚ)/3) (fun _ _ => (1 : ℚ)/4) (fun _ _ => (1 : ℚ)/5) 1 0 (by decide)⟩

/-- C5: the last row of the backward message matrix is identically zero
in log space (all ones in the linear domain) after both backward passes:
the HMM pass never writes row T-1 (it keeps its log-zero initialization),
and the HSMM pass forces the row once, after the loop, so the returned
row is the boundary value for every state k. -/
theorem backward_boundary_rows_zero (T K trunc : ℕ) (censoring : Bool)
    (A aB aDl aDsl : ℕ → ℕ → ℚ) (k : ℕ) (hT : 1 ≤ T) :
    messages_backwards_hmm K A aB T (T - 1) k = 1
    ∧ (messages_backwards_hsmm T K trunc censoring A aB aDl aDsl).1 (T - 1) k = 1 := by
  constructor
  · exact hmm_backwards_eq_ref K A aB T (T - 1) k (by omega) |>.trans
      (betalRefHMM_boundary T K A aB (T - 1) k (le_refl (T - 1)))
  · exact (hsmm_backwards_recurrence T K trunc censoring A aB aDl aDsl (T - 1) k
      (by omega)).2.2 rfl

/-- C5 witness at a concrete instance (T = 2, K = 2). -/
theorem backward_boundary_rows_zero_witness :
    1 ≤ 2 ∧
    (messages_backwards_hmm 2 (fun _ _ => (1 : ℚ)/2) (fun _ _ => (1 : ℚ)/3) 2 (2 - 1) 0 = 1
    ∧ (messages_backwards_hsmm 2 2 2 true (fun _ _ => (1 : ℚ)/2) (fun _ _ => (1 : ℚ)/3)
        (fun _ _ => (1 : ℚ)/4) (fun _ _ => (1 : ℚ)/5)).1 (2 - 1) 0 = 1) :=
  ⟨by decide,
    backward_boundary_rows_zero 2 2 2 true (fun _ _ => (1 : ℚ)/2) (fun _ _ => (1 : ℚ)/3)
      (fun _ _ => (1 : ℚ)/4) (fun _ _ => (1 : ℚ)/5) 0 (by decide)⟩

/-! ### HMM forward pass: recurrence and brute-force marginal (C2) -/

theorem forward_fold_eq_rec (K : ℕ) (A : ℕ → ℕ → ℚ) (pi0 : ℕ → ℚ)
    (aBl : List (ℕ → ℚ)) :
    ∀ i u k, u ≤ i →
      ((List.range i).foldl
        (fun st t => fun u2 k2 =>
          if u2 = t + 1
            then (∑ j ∈ Finset.range K, st t j * A j k2) * (aBl.getD (t + 1) fun _ => 0) k2
            else st u2 k2)
        (fun u2 k2 => if u2 = 0 then pi0 k2 * (aBl.getD 0 fun _ => 0) k2 else 1)) u k
      = alphaRec K A pi0 (fun t2 k2 => (aBl.getD t2 fun _ => 0) k2) u k := by
  intro i
  induction i with
  | zero =>
    intro u k hu
    have hu0 : u = 0 := by omega
    subst hu0
    show (if (0 : ℕ) = 0 then pi0 k * (aBl.getD 0 fun _ => 0) k else 1) = _
    rw [if_pos rfl]
    rfl
  | succ i ih =>
    intro u k hu
    rw [foldl_range_succ]
    set S := (List.range i).foldl
      (fun st t => fun u2 k2 =>
        if u2 = t + 1
          then (∑ j ∈ Finset.range K, st t j * A j k2) * (aBl.getD (t + 1) fun _ => 0) k2
          else st u2 k2)
      (fun u2 k2 => if u2 = 0 then pi0 k2 * (aBl.getD 0 fun _ => 0) k2 else 1) with hS
    show (if u = i + 1
        then (∑ j ∈ Finset.range K, S i j * A j k) * (aBl.getD (i + 1) fun _ => 0) k
        else S u k) = _
    by_cases hui : u = i + 1
    · rw [if_pos hui, hui]
      show (∑ j ∈ Finset.range K, _ * A j k) * _ = alphaRec K A pi0 _ (i + 1) k
      rw [show alphaRec K A pi0 (fun t2 k2 => (aBl.getD t2 fun _ => 0) k2) (i + 1) k
          = (∑ j ∈ Finset.range K,
              alphaRec K A pi0 (fun t2 k2 => (aBl.getD t2 fun _ => 0) k2) i j * A j k)
            * (aBl.getD (i + 1) fun _ => 0) k from rfl]
      congr 1
      exact Finset.sum_congr rfl fun j _ => by rw [ih i j (le_refl i)]
    · rw [if_neg hui]
      exact ih u k (by omega)

theorem alphaRec_brute (K : ℕ) (A : ℕ → ℕ → ℚ) (pi0 : ℕ → ℚ) (row : ℕ → ℕ → ℚ) :
    ∀ t k, alphaRec K A pi0 row t k
      = ((allPaths K t).map fun p => pathWeight A pi0 row t (k :: p)).sum := by
  intro t
  induction t with
  | zero =>
    intro k
    show pi0 k * row 0 k = _
    simp [allPaths, pathWeight]
  | succ t ih =>
    intro k
    show (∑ j ∈ Finset.range K, alphaRec K A pi0 row t j * A j k) * row (t + 1) k = _
    rw [show allPaths K (t + 1)
        = (List.range K).flatMap fun j => (allPaths K t).map fun p => j :: p from rfl]
    rw [list_sum_map_flatMap]
    have hinner : ∀ j,
        (((allPaths K t).map fun p => j :: p).map
          fun p => pathWeight A pi0 row (t + 1) (k :: p)).sum
        = alphaRec K A pi0 row t j * (A j k * row (t + 1) k) := by
      intro j
      rw [List.map_map]
      have hcomp : ((fun p => pathWeight A pi0 row (t + 1) (k :: p)) ∘ fun p => j :: p)
          = fun p => pathWeight A pi0 row t (j :: p) * (A j k * row (t + 1) k) := by
        funext p
        show pathWeight A pi0 row (t + 1) (k :: j :: p) = _
        simp [pathWeight]
        ring
      rw [hcomp, list_sum_map_mul_right, ih j]
    simp only [hinner]
    rw [list_sum_range_map K fun j => alphaRec K A pi0 row t j * (A j k * row (t + 1) k)]
    rw [Finset.sum_mul]
    exact Finset.sum_congr rfl fun j _ => mul_assoc _ _ _

/-- C2: the forward pass computes alphal[0,k] = log pi0[k] + aBl[0,k] and
alphal[t+1,k] = logsumexp_j(alphal[t,j] + log A[j,k]) + aBl[t+1,k]
(linear domain: products and weighted sums), deriving T from the shape
of its aBl argument alone, and the log-sum-exp of its last row equals
the log marginal likelihood obtained by brute-force summation over all
K^T state paths. -/
theorem hmm_forwards_matches_bruteforce (K : ℕ) (A : ℕ → ℕ → ℚ) (pi0 : ℕ → ℚ)
    (aBl : List (ℕ → ℚ)) (t k : ℕ) (hT : 1 ≤ aBl.length) :
    messages_forwards K A pi0 aBl 0 k = pi0 k * (aBl.getD 0 fun _ => 0) k
    ∧ (t + 1 ≤ aBl.length - 1 →
        messages_forwards K A pi0 aBl (t + 1) k
          = (∑ j ∈ Finset.range K, messages_forwards K A pi0 aBl t j * A j k)
            * (aBl.getD (t + 1) fun _ => 0) k)
    ∧ (∑ k2 ∈ Finset.range K, messages_forwards K A pi0 aBl (aBl.length - 1) k2)
        = hmmBruteForce K A pi0 aBl := by
  have hchar : ∀ u k2, u ≤ aBl.length - 1 →
      messages_forwards K A pi0 aBl u k2
        = alphaRec K A pi0 (fun t2 k3 => (aBl.getD t2 fun _ => 0) k3) u k2 :=
    fun u k2 hu => forward_fold_eq_rec K A pi0 aBl (aBl.length - 1) u k2 hu
  refine ⟨?_, ?_, ?_⟩
  · rw [hchar 0 k (by omega)]
    rfl
  · intro ht
    rw [hchar (t + 1) k ht]
    rw [show alphaRec K A pi0 (fun t2 k3 => (aBl.getD t2 fun _ => 0) k3) (t + 1) k
        = (∑ j ∈ Finset.range K,
            alphaRec K A pi0 (fun t2 k3 => (aBl.getD t2 fun _ => 0) k3) t j * A j k)
          * (aBl.getD (t + 1) fun _ => 0) k from rfl]
    congr 1
    exact Finset.sum_congr rfl fun j _ => by rw [hchar t j (by omega)]
  · have hstep : ∀ k2, messages_forwards K A pi0 aBl (aBl.length - 1) k2
        = ((allPaths K (aBl.length - 1)).map
            fun p => pathWeight A pi0 (fun t2 k3 => (aBl.getD t2 fun _ => 0) k3)
              (aBl.length - 1) (k2 :: p)).sum := by
      intro k2
      rw [hchar (aBl.length - 1) k2 (le_refl _), alphaRec_brute]
    simp only [hstep]
    unfold hmmBruteForce
    have hL : aBl.length = (aBl.length - 1) + 1 := by omega
    rw [show allPaths K aBl.length
        = (List.range K).flatMap
            fun j => (allPaths K (aBl.length - 1)).map fun p => j :: p by
      rw [hL]
      rfl]
    rw [list_sum_map_flatMap]
    rw [list_sum_range_map]
    simp only [List.map_map]
    rfl

/-- C2 witness at a concrete instance (K = 2, T = 4). -/
theorem hmm_forwards_matches_bruteforce_witness :
    messages_forwards 2 (fun _ _ => (1 : ℚ)/2) (fun _ => (1 : ℚ)/2)
        [fun k => if k = 0 then (1 : ℚ)/2 else 1/3, fun _ => (1 : ℚ)/4,
         fun _ => (1 : ℚ)/5, fun _ => (1 : ℚ)/6] 0 0
      = (1 : ℚ)/2 * (([fun k => if k = 0 then (1 : ℚ)/2 else 1/3, fun _ => (1 : ℚ)/4,
         fun _ => (1 : ℚ)/5, fun _ => (1 : ℚ)/6].getD 0 fun _ => 0) 0)
    ∧ messages_forwards 2 (fun _ _ => (1 : ℚ)/2) (fun _ => (1 : ℚ)/2)
        [fun k => if k = 0 then (1 : ℚ)/2 else 1/3, fun _ => (1 : ℚ)/4,
         fun _ => (1 : ℚ)/5, fun _ => (1 : ℚ)/6] (1 + 1) 0
      = (∑ j ∈ Finset.range 2,
          messages_forwards 2 (fun _ _ => (1 : ℚ)/2) (fun _ => (1 : ℚ)/2)
            [fun k => if k = 0 then (1 : ℚ)/2 else 1/3, fun _ => (1 : ℚ)/4,
             fun _ => (1 : ℚ)/5, fun _ => (1 : ℚ)/6] 1 j * ((1 : ℚ)/2))
        * (([fun k => if k = 0 then (1 : ℚ)/2 else 1/3, fun _ => (1 : ℚ)/4,
         fun _ => (1 : ℚ)/5, fun _ => (1 : ℚ)/6].getD (1 + 1) fun _ => 0) 0)
    ∧ (∑ k2 ∈ Finset.range 2,
        messages_forwards 2 (fun _ _ => (1 : ℚ)/2) (fun _ => (1 : ℚ)/2)
          [fun k => if k = 0 then (1 : ℚ)/2 else 1/3, fun _ => (1 : ℚ)/4,
           fun _ => (1 : ℚ)/5, fun _ => (1 : ℚ)/6]
          ([fun k => if k = 0 then (1 : ℚ)/2 else 1/3, fun _ => (1 : ℚ)/4,
           fun _ => (1 : ℚ)/5, fun _ => (1 : ℚ)/6].length - 1) k2)
      = hmmBruteForce 2 (fun _ _ => (1 : ℚ)/2) (fun _ => (1 : ℚ)/2)
          [fun k => if k = 0 then (1 : ℚ)/2 else 1/3, fun _ => (1 : ℚ)/4,
           fun _ => (1 : ℚ)/5, fun _ => (1 : ℚ)/6] := by
  obtain ⟨h1, h2, h3⟩ := hmm_forwards_matches_bruteforce 2 (fun _ _ => (1 : ℚ)/2)
    (fun _ => (1 : ℚ)/2)
    [fun k => if k = 0 then (1 : ℚ)/2 else 1/3, fun _ => (1 : ℚ)/4,
     fun _ => (1 : ℚ)/5, fun _ => (1 : ℚ)/6] 1 0 (by decide)
  exact ⟨h1, h2 (by decide), h3⟩

/-! ### Block variant: recurrences, singleton changepoints (C9) -/

theorem possible_durs_length_le (blocklens : ℕ → ℕ) (Tblock tblock trunc : ℕ) :
    (possible_durs blocklens Tblock tblock trunc).length ≤ Tblock - tblock := by
  unfold possible_durs cumsums
  calc (((List.range (Tblock - tblock)).map fun i =>
          ∑ j ∈ Finset.range (i + 1), blocklens (tblock + j)).filter _).length
      ≤ ((List.range (Tblock - tblock)).map fun i =>
          ∑ j ∈ Finset.range (i + 1), blocklens (tblock + j)).length :=
        List.length_filter_le _ _
    _ = Tblock - tblock := by simp

theorem betalRefBlock_boundary (Tblock K trunc : ℕ) (blocklens : ℕ → ℕ)
    (A aBBl aDl : ℕ → ℕ → ℚ) :
    ∀ u k, Tblock - 1 ≤ u → betalRefBlock Tblock K trunc blocklens A aBBl aDl u k = 1 := by
  intro u k hu
  rw [betalRefBlock]
  rw [dif_pos hu]

theorem betalRefBlock_step (Tblock K trunc : ℕ) (blocklens : ℕ → ℕ)
    (A aBBl aDl : ℕ → ℕ → ℚ) :
    ∀ u k, u < Tblock - 1 →
      betalRefBlock Tblock K trunc blocklens A aBBl aDl u k
        = ∑ j ∈ Finset.range K, A k j *
            blockBstarStep Tblock trunc blocklens aBBl aDl
              (betalRefBlock Tblock K trunc blocklens A aBBl aDl) (u + 1) j := by
  intro u k hu
  rw [betalRefBlock]
  rw [dif_neg (by omega)]
  rfl

theorem blockBstarStep_local (Tblock K trunc : ℕ) (blocklens : ℕ → ℕ)
    (aBBl aDl : ℕ → ℕ → ℚ) :
    ∀ t, t < Tblock → ∀ st st2 : ℕ → ℕ → ℚ,
      (∀ u k, t ≤ u → u < Tblock → st u k = st2 u k) → ∀ k,
      blockBstarStep Tblock trunc blocklens aBBl aDl st t k
        = blockBstarStep Tblock trunc blocklens aBBl aDl st2 t k := by
  intro t ht st st2 hagree k
  unfold blockBstarStep
  refine Finset.sum_congr rfl fun i hi => ?_
  rw [Finset.mem_range] at hi
  have hlen := possible_durs_length_le blocklens Tblock t trunc
  rw [hagree (t + i) k (by omega) (by omega)]

theorem block_backwards_recurrence (Tblock K trunc : ℕ) (A aB aDl : ℕ → ℕ → ℚ)
    (cps : List (ℕ × ℕ)) :
    ∀ t k, t < Tblock →
      (block_messages_backwards Tblock K trunc A aB cps aDl).2 t k
        = blockBstarStep Tblock trunc (block_lens cps) (block_get_aBl aB cps).2 aDl
            (block_messages_backwards Tblock K trunc A aB cps aDl).1 t k
      ∧ (t < Tblock - 1 → (block_messages_backwards Tblock K trunc A aB cps aDl).1 t k
          = ∑ j ∈ Finset.range K, A k j *
              (block_messages_backwards Tblock K trunc A aB cps aDl).2 (t + 1) j)
      ∧ (t = Tblock - 1 →
          (block_messages_backwards Tblock K trunc A aB cps aDl).1 t k = 1) := by
  intro t k ht
  exact backpass_recurrence Tblock K A
    (blockBstarStep Tblock trunc (block_lens cps) (block_get_aBl aB cps).2 aDl)
    (betalRefBlock Tblock K trunc (block_lens cps) A (block_get_aBl aB cps).2 aDl)
    (betalRefBlock_boundary Tblock K trunc (block_lens cps) A _ aDl)
    (betalRefBlock_step Tblock K trunc (block_lens cps) A _ aDl)
    (blockBstarStep_local Tblock K trunc (block_lens cps) _ aDl) t k ht

theorem getD_range_map {α : Type} (f : ℕ → α) (T b : ℕ) (d : α) (hb : b < T) :
    ((List.range T).map f).getD b d = f b := by
  simp [List.getD_eq_getElem?_getD, List.getElem?_range hb]

theorem block_lens_singleton (T : ℕ) : ∀ b, b < T →
    block_lens ((List.range T).map fun i => (i, i + 1)) b = 1 := by
  intro b hb
  unfold block_lens
  rw [getD_range_map (fun i => (i, i + 1)) T b (0, 0) hb]
  omega

theorem cumsums_singleton (T t : ℕ) (ht : t < T) :
    cumsums (block_lens ((List.range T).map fun i => (i, i + 1))) t (T - t)
      = (List.range (T - t)).map fun i => i + 1 := by
  unfold cumsums
  refine List.map_congr_left fun i hi => ?_
  rw [List.mem_range] at hi
  have heach : ∀ j ∈ Finset.range (i + 1),
      block_lens ((List.range T).map fun i2 => (i2, i2 + 1)) (t + j) = 1 := by
    intro j hj
    rw [Finset.mem_range] at hj
    exact block_lens_singleton T (t + j) (by omega)
  rw [Finset.sum_congr rfl heach]
  simp

theorem filter_map_range_lt (n c : ℕ) :
    ((List.range n).map fun i => i + 1).filter (fun d => d < c)
      = (List.range (min (c - 1) n)).map fun i => i + 1 := by
  induction n with
  | zero => simp
  | succ n ih =>
    rw [List.range_succ, List.map_append, List.filter_append, ih]
    by_cases h : n + 1 < c
    · have h1 : min (c - 1) (n + 1) = n + 1 := by omega
      have h2 : min (c - 1) n = n := by omega
      rw [h1, h2]
      rw [List.range_succ, List.map_append]
      congr 1
      simp [List.filter_cons, h]
    · have h1 : min (c - 1) (n + 1) = min (c - 1) n := by omega
      rw [h1]
      have h2 : (([n] : List ℕ).map fun i => i + 1).filter (fun d => d < c) = [] := by
        simp [List.filter_cons, h]
      rw [h2, List.append_nil]

theorem possible_durs_singleton (T t trunc : ℕ) (ht : t < T) :
    possible_durs (block_lens ((List.range T).map fun i => (i, i + 1))) T t trunc
      = (List.range (min (max trunc 2 - 1) (T - t))).map fun i => i + 1 := by
  have hhead : (((List.range (T - t)).map fun i => i + 1).headD 0) = 1 := by
    have h1 : T - t = (T - t - 1) + 1 := by omega
    rw [h1, List.range_succ_eq_map]
    rfl
  unfold possible_durs
  rw [cumsums_singleton T t ht]
  show ((List.range (T - t)).map fun i => i + 1).filter
      (fun d => d < max trunc ((((List.range (T - t)).map fun i => i + 1).headD 0) + 1))
    = _
  rw [hhead]
  exact filter_map_range_lt (T - t) (max trunc 2)

/-- C9 counterexample: with the T = 2 singleton changepoints
[(0,1),(1,2)], trunc = 2, censoring disabled, unit likelihoods, one
state, and duration pmf 1/2 at duration 1 and 1/4 at duration 2, the
block pass renormalizes the truncated duration pmf over the available
block-aligned durations (a division by 1/2 here) and truncates the
duration support strictly below max(trunc, shortest+1), so
betastarl[1,0] = 1 while the exact engine computes 1/2. -/
theorem block_singleton_differs_from_exact :
    (block_messages_backwards 2 1 2 (fun _ _ => (1 : ℚ)) (fun _ _ => (1 : ℚ))
        [(0, 1), (1, 2)]
        (fun d _ => if d = 0 then (1 : ℚ)/2 else if d = 1 then 1/4 else 0)).2 1 0 = 1
    ∧ (messages_backwards_hsmm 2 1 2 false (fun _ _ => (1 : ℚ)) (fun _ _ => (1 : ℚ))
        (fun d _ => if d = 0 then (1 : ℚ)/2 else if d = 1 then 1/4 else 0)
        (fun _ _ => 0)).2 1 0 = 1/2
    ∧ ¬ ((block_messages_backwards 2 1 2 (fun _ _ => (1 : ℚ)) (fun _ _ => (1 : ℚ))
        [(0, 1), (1, 2)]
        (fun d _ => if d = 0 then (1 : ℚ)/2 else if d = 1 then 1/4 else 0)).2 1 0
      = (messages_backwards_hsmm 2 1 2 false (fun _ _ => (1 : ℚ)) (fun _ _ => (1 : ℚ))
        (fun d _ => if d = 0 then (1 : ℚ)/2 else if d = 1 then 1/4 else 0)
        (fun _ _ => 0)).2 1 0) := by
  have hblk : (block_messages_backwards 2 1 2 (fun _ _ => (1 : ℚ)) (fun _ _ => (1 : ℚ))
      [(0, 1), (1, 2)]
      (fun d _ => if d = 0 then (1 : ℚ)/2 else if d = 1 then 1/4 else 0)).2 1 0 = 1 := by
    obtain ⟨h1, _, h3⟩ := block_backwards_recurrence 2 1 2 (fun _ _ => (1 : ℚ))
      (fun _ _ => (1 : ℚ))
      (fun d _ => if d = 0 then (1 : ℚ)/2 else if d = 1 then 1/4 else 0)
      [(0, 1), (1, 2)] 1 0 (by omega)
    rw [h1]
    have hP : possible_durs (block_lens [(0, 1), (1, 2)]) 2 1 2 = [1] := by
      norm_num [possible_durs, cumsums, block_lens, List.range_succ,
        Finset.sum_range_succ, List.getD, List.filter_cons]
    unfold blockBstarStep
    rw [hP]
    rw [show ([1] : List ℕ).length = 1 from rfl, Finset.sum_range_one]
    simp only [Nat.add_zero]
    rw [h3 rfl]
    norm_num [block_get_aBl, likelihood_block, List.getD,
      Finset.prod_Ico_eq_prod_range, Finset.prod_range_succ]
  have hex : (messages_backwards_hsmm 2 1 2 false (fun _ _ => (1 : ℚ)) (fun _ _ => (1 : ℚ))
      (fun d _ => if d = 0 then (1 : ℚ)/2 else if d = 1 then 1/4 else 0)
      (fun _ _ => 0)).2 1 0 = 1/2 := by
    obtain ⟨h1, _, h3⟩ := hsmm_backwards_recurrence 2 1 2 false (fun _ _ => (1 : ℚ))
      (fun _ _ => (1 : ℚ))
      (fun d _ => if d = 0 then (1 : ℚ)/2 else if d = 1 then 1/4 else 0)
      (fun _ _ => 0) 1 0 (by omega)
    rw [h1]
    unfold hsmmBstarStep
    rw [show min 2 (2 - 1) = 1 from rfl, Finset.sum_range_one]
    simp only [Nat.add_zero]
    rw [h3 rfl]
    norm_num [likelihood_block, Finset.prod_Ico_eq_prod_range, Finset.prod_range_succ]
  refine ⟨hblk, hex, ?_⟩
  rw [hblk, hex]
  norm_num

/-- C9 (amended): when the changepoints are the T singleton intervals
[(0,1),(1,2),...,(T-1,T)], the block backward pass does NOT reproduce the
exact engine; instead each betastarl row is a renormalized truncated sum:
betastarl[t,k] sums over durations d = 1..min(max(trunc,2)-1, T-t) the
terms betal[t+d-1,k] + cumulative likelihood + aDl[d-1,k], each divided
(log: minus) by the normalizer logsumexp of aDl over exactly that
duration set, and no censoring term is applied. -/
theorem block_singleton_characterization (T K trunc : ℕ) (A aB aDl : ℕ → ℕ → ℚ)
    (t k : ℕ) (ht : t < T) :
    (block_messages_backwards T K trunc A aB
        ((List.range T).map fun i => (i, i + 1)) aDl).2 t k
      = ∑ i ∈ Finset.range (min (max trunc 2 - 1) (T - t)),
          (block_messages_backwards T K trunc A aB
              ((List.range T).map fun i => (i, i + 1)) aDl).1 (t + i) k
            * (∏ s ∈ Finset.Ico t (t + i + 1), aB s k) * aDl i k
            / (∑ i2 ∈ Finset.range (min (max trunc 2 - 1) (T - t)), aDl i2 k) := by
  rw [(block_backwards_recurrence T K trunc A aB aDl
    ((List.range T).map fun i => (i, i + 1)) t k ht).1]
  unfold blockBstarStep
  rw [possible_durs_singleton T t trunc ht]
  have hlen : (((List.range (min (max trunc 2 - 1) (T - t))).map fun i => i + 1)).length
      = min (max trunc 2 - 1) (T - t) := by simp
  rw [hlen]
  have hden : ((((List.range (min (max trunc 2 - 1) (T - t))).map fun i => i + 1)).map
        fun d => aDl (d - 1) k).sum
      = ∑ i2 ∈ Finset.range (min (max trunc 2 - 1) (T - t)), aDl i2 k := by
    rw [List.map_map]
    rw [show ((fun d => aDl (d - 1) k) ∘ fun i => i + 1) = fun i => aDl i k by
      funext i
      show aDl (i + 1 - 1) k = aDl i k
      rw [Nat.add_sub_cancel]]
    exact list_sum_range_map _ _
  rw [hden]
  refine Finset.sum_congr rfl fun i hi => ?_
  rw [Finset.mem_range] at hi
  rw [getD_range_map (fun i2 => i2 + 1) _ i 0 hi]
  rw [Nat.add_sub_cancel]
  have hblock : (∏ b ∈ Finset.Ico t (t + i + 1),
        (block_get_aBl aB ((List.range T).map fun i2 => (i2, i2 + 1))).2 b k)
      = ∏ s ∈ Finset.Ico t (t + i + 1), aB s k := by
    refine Finset.prod_congr rfl fun b hb => ?_
    rw [Finset.mem_Ico] at hb
    show likelihood_block aB
        ((((List.range T).map fun i2 => (i2, i2 + 1)).getD b (0, 0)).1)
        ((((List.range T).map fun i2 => (i2, i2 + 1)).getD b (0, 0)).2) k = aB b k
    rw [getD_range_map (fun i2 => (i2, i2 + 1)) T b (0, 0) (by omega)]
    unfold likelihood_block
    rw [Nat.Ico_succ_singleton, Finset.prod_singleton]
  rw [hblock]

/-- C9 witness at a concrete instance (T = 3, K = 1, trunc = 3, t = 0). -/
theorem block_singleton_characterization_witness :
    0 < 3 ∧
    (block_messages_backwards 3 1 3 (fun _ _ => (1 : ℚ)/2) (fun _ _ => (1 : ℚ)/3)
        ((List.range 3).map fun i => (i, i + 1)) (fun _ _ => (1 : ℚ)/4)).2 0 0
      = ∑ i ∈ Finset.range (min (max 3 2 - 1) (3 - 0)),
          (block_messages_backwards 3 1 3 (fun _ _ => (1 : ℚ)/2) (fun _ _ => (1 : ℚ)/3)
              ((List.range 3).map fun i => (i, i + 1)) (fun _ _ => (1 : ℚ)/4)).1 (0 + i) 0
            * (∏ s ∈ Finset.Ico 0 (0 + i + 1), (1 : ℚ)/3) * ((1 : ℚ)/4)
            / (∑ i2 ∈ Finset.range (min (max 3 2 - 1) (3 - 0)), (1 : ℚ)/4) :=
  ⟨by decide,
    block_singleton_characterization 3 1 3 (fun _ _ => (1 : ℚ)/2) (fun _ _ => (1 : ℚ)/3)
      (fun _ _ => (1 : ℚ)/4) 0 0 (by decide)⟩

/-! ### Degenerate sampling weights (C6) -/

theorem hmm_sample_step_all_zero (K : ℕ) (pending betal_t aB_t : ℕ → ℚ) (u : ℚ)
    (hz : ∀ k ∈ List.range K,
      pending k * (if pending k = 0 then 0 else betal_t k * aB_t k) = 0) :
    hmm_sample_step K pending betal_t aB_t u = .error .degenerate := by
  unfold hmm_sample_step sample_discrete
  rw [dif_pos]
  intro x hx
  rcases List.mem_map.mp hx with ⟨k, hk, rfl⟩
  exact hz k hk

/-- C6 (amended): all-zero sampling weights raise
DegenerateDistributionError in the HMM sampler, and the error from the
first timestep surfaces through the whole HMM sampling loop, which stops
(no retry, no fallback).  In the HSMM sampler, however, when the
pending-weighted vector is all zeros the source substitutes the
message-only distribution exp(betastarl[idx] - max) as a fallback and
continues by sampling from it instead of raising. -/
theorem sample_zero_weights_behavior (T K : ℕ) (A : ℕ → ℕ → ℚ) (pi0 : ℕ → ℚ)
    (betal aB : ℕ → ℕ → ℚ) (pending bstar_t betal_t aB_t : ℕ → ℚ) (rng : ℕ → ℚ)
    (u : ℚ) :
    ((∀ k ∈ List.range K,
        pending k * (if pending k = 0 then 0 else betal_t k * aB_t k) = 0) →
      hmm_sample_step K pending betal_t aB_t u = .error .degenerate)
    ∧ ((∀ k ∈ List.range K,
        pi0 k * (if pi0 k = 0 then 0 else betal 0 k * aB 0 k) = 0) → 1 ≤ T →
      hmm_sample_forwards T K A pi0 betal aB rng = .error .degenerate)
    ∧ ((∀ k ∈ List.range K, bstar_t k * pending k = 0) →
      hsmm_sample_state K bstar_t pending u
        = sample_discrete ((List.range K).map fun k => bstar_t k) u) := by
  refine ⟨fun hz => hmm_sample_step_all_zero K pending betal_t aB_t u hz, ?_, ?_⟩
  · intro hz hT
    obtain ⟨m, rfl⟩ : ∃ m, T = m + 1 := ⟨T - 1, by omega⟩
    unfold hmm_sample_forwards
    show (do
      let s ← hmm_sample_step K pi0 (betal 0) (aB 0) (rng 0)
      hmm_sample_forwards_go K A betal aB rng m (0 + 1) (fun j => A s j) (s :: []))
      = .error .degenerate
    rw [hmm_sample_step_all_zero K pi0 (betal 0) (aB 0) (rng 0) hz]
    rfl
  · intro hz
    unfold hsmm_sample_state
    rw [dif_pos hz]

/-- C6 witness at a concrete instance (K = 2, T = 1): the HMM step and
loop raise on the all-zero weight vector built from pending = (0,0); the
HSMM step with pending = (1,0) and betastarl row (0,5) delegates to the
fallback distribution. -/
theorem sample_zero_weights_behavior_witness :
    hmm_sample_step 2 (fun _ => (0 : ℚ)) (fun _ => (1 : ℚ)) (fun _ => (1 : ℚ)) (1/2)
      = .error .degenerate
    ∧ hmm_sample_forwards 1 2 (fun _ _ => (1 : ℚ)/2) (fun _ => (0 : ℚ))
        (fun _ _ => (1 : ℚ)) (fun _ _ => (1 : ℚ)) (fun _ => (1 : ℚ)/2)
      = .error .degenerate
    ∧ hsmm_sample_state 2 (fun k => if k = 0 then (0 : ℚ) else 5)
        (fun k => if k = 0 then (1 : ℚ) else 0) (1/2)
      = sample_discrete ((List.range 2).map fun k =>
          if k = 0 then (0 : ℚ) else 5) (1/2) :=
  ⟨(sample_zero_weights_behavior 1 2 (fun _ _ => (1 : ℚ)/2) (fun _ => (0 : ℚ))
      (fun _ _ => (1 : ℚ)) (fun _ _ => (1 : ℚ)) (fun _ => (0 : ℚ))
      (fun k => if k = 0 then (0 : ℚ) else 5) (fun _ => (1 : ℚ)) (fun _ => (1 : ℚ))
      (fun _ => (1 : ℚ)/2) (1/2)).1 (by intro k hk; norm_num),
   (sample_zero_weights_behavior 1 2 (fun _ _ => (1 : ℚ)/2) (fun _ => (0 : ℚ))
      (fun _ _ => (1 : ℚ)) (fun _ _ => (1 : ℚ)) (fun k => if k = 0 then (1 : ℚ) else 0)
      (fun k => if k = 0 then (0 : ℚ) else 5) (fun _ => (1 : ℚ)) (fun _ => (1 : ℚ))
      (fun _ => (1 : ℚ)/2) (1/2)).2.1 (by intro k hk; norm_num) (by decide),
   (sample_zero_weights_behavior 1 2 (fun _ _ => (1 : ℚ)/2) (fun _ => (0 : ℚ))
      (fun _ _ => (1 : ℚ)) (fun _ _ => (1 : ℚ)) (fun k => if k = 0 then (1 : ℚ) else 0)
      (fun k => if k = 0 then (0 : ℚ) else 5) (fun _ => (1 : ℚ)) (fun _ => (1 : ℚ))
      (fun _ => (1 : ℚ)/2) (1/2)).2.2
      (by intro k hk; fin_cases hk <;> norm_num)⟩

/-- C6 counterexample: a concrete HSMM state-sampling step where every
pending-weighted sampling weight is exactly zero (pending = (1,0) puts
all mass on state 0, the betastarl row (0,5) gives state 0 zero weight),
yet the engine does not raise and does not stop: it substitutes the
message-only fallback distribution and returns state 1. -/
theorem hsmm_zero_weights_fallback_example :
    ((fun k => if k = 0 then (0 : ℚ) else 5) 0
        * (fun k => if k = 0 then (1 : ℚ) else 0) 0 = 0)
    ∧ ((fun k => if k = 0 then (0 : ℚ) else 5) 1
        * (fun k => if k = 0 then (1 : ℚ) else 0) 1 = 0)
    ∧ hsmm_sample_state 2 (fun k => if k = 0 then (0 : ℚ) else 5)
        (fun k => if k = 0 then (1 : ℚ) else 0) (1/2) = .ok 1 := by
  refine ⟨by norm_num, by norm_num, ?_⟩
  rw [hsmm_sample_state, dif_pos (by intro k hk; fin_cases hk <;> norm_num)]
  norm_num [sample_discrete, cdfIndex, List.range_succ]

/-! ### The censored duration overflow draw (C3) -/

/-- C3: at a concrete failing input the source duration sampler and the
intended (specified) duration sampler diverge.  T = 2, idx = 0, the
sampled state is 0, K = 2; state 0 has duration pmf concentrated at
duration 4, state 1 (the last state) at duration 3; the in-window pmf
values are all zero, so the loop reaches the censoring branch with
dur = 2.  The source (states.py line 338) draws the overflow from the
leftover loop variable dur_distn — the distribution of the LAST state —
returning duration index 2, while the spec prescribes the sampled state
0, returning 3. -/
theorem hsmm_censored_overflow_uses_last_state_pmf :
    sample_dur 2 0 0 2
        (fun s d => if s = 0 then (if d = 4 then (1 : ℚ) else 0)
          else (if d = 3 then (1 : ℚ) else 0))
        (fun _ _ => 1) (fun _ _ => 1) (fun _ _ => 1) true (fun _ => (1 : ℚ)/2)
        ((1 : ℚ)/2) 5
      = .ok (2, 6)
    ∧ sample_dur_intended 2 0 0 2
        (fun s d => if s = 0 then (if d = 4 then (1 : ℚ) else 0)
          else (if d = 3 then (1 : ℚ) else 0))
        (fun _ _ => 1) (fun _ _ => 1) (fun _ _ => 1) true (fun _ => (1 : ℚ)/2)
        ((1 : ℚ)/2) 5
      = .ok (3, 6) := by
  constructor
  · norm_num [sample_dur, sample_dur_go, sample_discrete, cdfIndex,
      likelihood_block, List.range_succ, except_bind_ok, except_bind_error]
  · norm_num [sample_dur_intended, sample_dur_go_intended, sample_discrete, cdfIndex,
      likelihood_block, List.range_succ, except_bind_ok, except_bind_error]

/-! ### Run-length invariants of HSMM forward sampling (C4) -/

theorem hsmm_sample_go_spec (T K : ℕ) (A : ℕ → ℕ → ℚ)
    (durpmf aB betal bstar : ℕ → ℕ → ℚ) (censoring : Bool) (rng : ℕ → ℚ) :
    ∀ fuel idx pending norep durs n res,
      durs.sum = idx →
      norep.length = durs.length →
      List.Chain' (fun a b => a ≠ b) norep →
      hsmm_sample_forwards_go T K A durpmf aB betal bstar censoring rng
        fuel idx pending norep durs n = .ok res →
      res.1.length = res.2.length ∧ T ≤ res.2.sum
        ∧ List.Chain' (fun a b => a ≠ b) res.1 := by
  have hout : ∀ (norep durs : List ℕ) (idx : ℕ), durs.sum = idx →
      norep.length = durs.length → List.Chain' (fun a b => a ≠ b) norep → T ≤ idx →
      (norep.reverse.length = durs.reverse.length ∧ T ≤ durs.reverse.sum
        ∧ List.Chain' (fun a b => a ≠ b) norep.reverse) := by
    intro norep durs idx hsum hlen hchain hT
    refine ⟨by simp [hlen], ?_, ?_⟩
    · rw [List.sum_reverse, hsum]
      exact hT
    · rw [List.chain'_reverse]
      exact hchain.imp fun a b hab => fun e => hab e.symm
  intro fuel
  induction fuel with
  | zero =>
    intro idx pending norep durs n res hsum hlen hchain h
    simp only [hsmm_sample_forwards_go] at h
    by_cases hT : T ≤ idx
    · rw [if_pos hT] at h
      rw [Except.ok.injEq] at h
      rw [← h]
      exact hout norep durs idx hsum hlen hchain hT
    · rw [if_neg hT] at h
      exact absurd h (by simp)
  | succ fuel ih =>
    intro idx pending norep durs n res hsum hlen hchain h
    simp only [hsmm_sample_forwards_go] at h
    by_cases hT : T ≤ idx
    · rw [if_pos hT] at h
      rw [Except.ok.injEq] at h
      rw [← h]
      exact hout norep durs idx hsum hlen hchain hT
    · rw [if_neg hT] at h
      rcases hstate : hsmm_sample_state K (bstar idx) pending (rng n) with e | state
      · rw [hstate, except_bind_error] at h
        exact absurd h (by simp)
      · rw [hstate, except_bind_ok] at h
        by_cases hhd : norep.head? = some state
        · rw [if_pos hhd] at h
          exact absurd h (by simp)
        · rw [if_neg hhd] at h
          rcases hdur : sample_dur T idx state K durpmf aB betal bstar censoring rng
              (rng (n + 1)) (n + 2) with e | r
          · rw [hdur, except_bind_error] at h
            exact absurd h (by simp)
          · rw [hdur, except_bind_ok] at h
            by_cases hr0 : r.1 = 0
            · rw [if_pos hr0] at h
              exact absurd h (by simp)
            · rw [if_neg hr0] at h
              refine ih (idx + r.1) (fun j => A state j) (state :: norep)
                (r.1 :: durs) r.2 res ?_ ?_ ?_ h
              · rw [List.sum_cons, hsum]
                omega
              · simp [hlen]
              · rw [List.chain'_cons']
                refine ⟨?_, hchain⟩
                intro b hb hsb
                apply hhd
                rw [Option.mem_def] at hb
                rw [hb, hsb]

/-- C4 (amended): every completed HSMM forward-sampling pass returns a
run-length encoding with len(stateseq_norep) = len(durations) and no two
consecutive entries of stateseq_norep equal (the loop asserts this), but
sum(durations) is only bounded below by T: the recorded duration of the
final segment may overrun the sequence end (the censored overflow draw,
or the final increment when censoring is off), so sum(durations) > T is
possible — see the counterexample theorem. -/
theorem hsmm_sample_rle_invariants (T K : ℕ) (A : ℕ → ℕ → ℚ) (pi0 : ℕ → ℚ)
    (durpmf aB betal bstar : ℕ → ℕ → ℚ) (censoring : Bool) (rng : ℕ → ℚ)
    (norep durs : List ℕ)
    (h : hsmm_sample_forwards T K A pi0 durpmf aB betal bstar censoring rng
      = .ok (norep, durs)) :
    norep.length = durs.length ∧ T ≤ durs.sum
      ∧ List.Chain' (fun a b => a ≠ b) norep :=
  hsmm_sample_go_spec T K A durpmf aB betal bstar censoring rng T 0 pi0 [] [] 0
    (norep, durs) rfl rfl List.chain'_nil h

/-- C4 witness: a concrete completed pass (T = 2, two states, zero
self-transitions, deterministic unit durations, censoring off). -/
theorem hsmm_sample_rle_invariants_witness :
    ([0, 1] : List ℕ).length = ([1, 1] : List ℕ).length
      ∧ 2 ≤ ([1, 1] : List ℕ).sum
      ∧ List.Chain' (fun a b => a ≠ b) ([0, 1] : List ℕ) :=
  hsmm_sample_rle_invariants 2 2 (fun i j => if i = j then (0 : ℚ) else 1)
    (fun k => if k = 0 then (1 : ℚ) else 0)
    (fun _ d => if d = 1 then (1 : ℚ) else 0)
    (fun _ _ => 1) (fun _ _ => 1) (fun _ _ => 1) false (fun _ => (1 : ℚ)/2)
    [0, 1] [1, 1]
    (by
      norm_num [hsmm_sample_forwards, hsmm_sample_forwards_go, hsmm_sample_state,
        sample_dur, sample_dur_go, sample_discrete, cdfIndex, likelihood_block,
        List.range_succ, except_bind_ok, except_bind_error]
      exact fun hcon => absurd hcon (by simp))

/-- C4 counterexample: a completed censored pass whose recorded durations
sum to 3 although T = 2 (state 0 has no in-window duration mass, so the
loop reaches the censoring branch and the overflow draw lands on
duration index 1 of the tail): sum(durations) == T fails. -/
theorem hsmm_sample_durations_overrun_example :
    hsmm_sample_forwards 2 2 (fun i j => if i = j then (0 : ℚ) else 1)
        (fun k => if k = 0 then (1 : ℚ) else 0)
        (fun s d => if s = 1 ∧ d = 4 then (1 : ℚ) else 0)
        (fun _ _ => 1) (fun _ _ => 1) (fun _ _ => 1) true (fun _ => (1 : ℚ)/2)
      = .ok ([0], [3])
    ∧ ([3] : List ℕ).sum ≠ 2 := by
  constructor
  · norm_num [hsmm_sample_forwards, hsmm_sample_forwards_go, hsmm_sample_state,
      sample_dur, sample_dur_go, sample_discrete, cdfIndex, likelihood_block,
      List.range_succ, except_bind_ok, except_bind_error]
    exact fun hcon => absurd hcon (by simp)
  · decide

/-! ### The block variant reads likelihoods only through aBBl (C10) -/

theorem block_sample_go_congr (Tblock K trunc : ℕ) (A aDl : ℕ → ℕ → ℚ)
    (blocklens : ℕ → ℕ) (aBBl aBBl2 betal bstar : ℕ → ℕ → ℚ) (rng : ℕ → ℚ)
    (hagg : ∀ b k, b < Tblock → aBBl b k = aBBl2 b k) :
    ∀ fuel tblock pending acc n,
      block_sample_forwards_go Tblock K trunc A aDl blocklens aBBl betal bstar rng
        fuel tblock pending acc n
      = block_sample_forwards_go Tblock K trunc A aDl blocklens aBBl2 betal bstar rng
        fuel tblock pending acc n := by
  intro fuel
  induction fuel with
  | zero => intro tblock pending acc n; rfl
  | succ fuel ih =>
    intro tblock pending acc n
    simp only [block_sample_forwards_go]
    by_cases htb : Tblock ≤ tblock
    · rw [if_pos htb, if_pos htb]
    · rw [if_neg htb, if_neg htb]
      rcases hs : sample_discrete
          ((List.range K).map fun k => bstar tblock k * pending k) (rng n) with e | state
      · rw [except_bind_error, except_bind_error]
      · rw [except_bind_ok, except_bind_ok]
        have hlist : ((List.range (possible_durs blocklens Tblock tblock trunc).length).map
              fun v => aDl ((possible_durs blocklens Tblock tblock trunc).getD v 0 - 1) state
                * (∏ b ∈ Finset.Ico tblock (tblock + v + 1), aBBl b state)
                * betal (tblock + v) state / bstar tblock state)
            = ((List.range (possible_durs blocklens Tblock tblock trunc).length).map
              fun v => aDl ((possible_durs blocklens Tblock tblock trunc).getD v 0 - 1) state
                * (∏ b ∈ Finset.Ico tblock (tblock + v + 1), aBBl2 b state)
                * betal (tblock + v) state / bstar tblock state) := by
          refine List.map_congr_left fun v hv => ?_
          rw [List.mem_range] at hv
          have hlen := possible_durs_length_le blocklens Tblock tblock trunc
          have hprod : (∏ b ∈ Finset.Ico tblock (tblock + v + 1), aBBl b state)
              = ∏ b ∈ Finset.Ico tblock (tblock + v + 1), aBBl2 b state := by
            refine Finset.prod_congr rfl fun b hb => ?_
            rw [Finset.mem_Ico] at hb
            exact hagg b state (by omega)
          rw [hprod]
        rw [hlist]
        rcases hr : (if 1 < (possible_durs blocklens Tblock tblock trunc).length then do
            let i ← sample_discrete_from_log
              ((List.range (possible_durs blocklens Tblock tblock trunc).length).map
                fun v => aDl ((possible_durs blocklens Tblock tblock trunc).getD v 0 - 1) state
                  * (∏ b ∈ Finset.Ico tblock (tblock + v + 1), aBBl2 b state)
                  * betal (tblock + v) state / bstar tblock state) (rng (n + 1))
            pure (i + 1, n + 2)
          else pure (1, n + 1) : Except PyErr (ℕ × ℕ)) with e | r
        · rw [except_bind_error, except_bind_error]
        · rw [except_bind_ok, except_bind_ok]
          exact ih (tblock + r.1) (fun j => A state j) (List.replicate r.1 state ++ acc) r.2

/-- C10: the changepoint variant never produces a per-timestep likelihood
table: get_aBl returns None (so the aBl attribute stored by the inherited
resample is None) while storing the block-aggregated table aBBl of
per-block log-likelihood sums, and both the block backward pass and the
block forward sampling read likelihoods only through aBBl — they are
invariant under replacing the observation table with any table having
the same per-block aggregates. -/
theorem block_aBl_none_and_aBBl_flow (Tblock K trunc : ℕ) (A : ℕ → ℕ → ℚ)
    (pi0 : ℕ → ℚ) (aB aB2 aDl betal bstar : ℕ → ℕ → ℚ) (cps : List (ℕ × ℕ))
    (rng : ℕ → ℚ) (b k : ℕ)
    (hagg : ∀ b2 k2, b2 < Tblock →
      (block_get_aBl aB cps).2 b2 k2 = (block_get_aBl aB2 cps).2 b2 k2) :
    block_resample_aBl aB cps = none
    ∧ (block_get_aBl aB cps).2 b k
        = ∏ s ∈ Finset.Ico (cps.getD b (0, 0)).1 (cps.getD b (0, 0)).2, aB s k
    ∧ block_messages_backwards Tblock K trunc A aB cps aDl
        = block_messages_backwards Tblock K trunc A aB2 cps aDl
    ∧ block_sample_forwards Tblock K trunc A pi0 aB cps aDl betal bstar rng
        = block_sample_forwards Tblock K trunc A pi0 aB2 cps aDl betal bstar rng := by
  refine ⟨rfl, rfl, ?_, ?_⟩
  · unfold block_messages_backwards
    apply backpass_congr
    intro st t k2 ht
    unfold blockBstarStep
    refine Finset.sum_congr rfl fun i hi => ?_
    rw [Finset.mem_range] at hi
    have hlen := possible_durs_length_le (block_lens cps) Tblock t trunc
    have hprod : (∏ b2 ∈ Finset.Ico t (t + i + 1), (block_get_aBl aB cps).2 b2 k2)
        = ∏ b2 ∈ Finset.Ico t (t + i + 1), (block_get_aBl aB2 cps).2 b2 k2 := by
      refine Finset.prod_congr rfl fun b2 hb2 => ?_
      rw [Finset.mem_Ico] at hb2
      exact hagg b2 k2 (by omega)
    rw [hprod]
  · unfold block_sample_forwards
    exact block_sample_go_congr Tblock K trunc A aDl (block_lens cps)
      (block_get_aBl aB cps).2 (block_get_aBl aB2 cps).2 betal bstar rng hagg
      Tblock 0 pi0 [] 0

/-- C10 witness at a concrete instance: one block (0,2), and two
observation tables that differ per timestep but have the same block
aggregate (2*3 = 3*2). -/
theorem block_aBl_none_and_aBBl_flow_witness :
    block_resample_aBl (fun s _ => if s = 0 then (2 : ℚ) else 3) [(0, 2)] = none
    ∧ (block_get_aBl (fun s _ => if s = 0 then (2 : ℚ) else 3) [(0, 2)]).2 0 0
        = ∏ s ∈ Finset.Ico ((([(0, 2)] : List (ℕ × ℕ)).getD 0 (0, 0)).1)
            ((([(0, 2)] : List (ℕ × ℕ)).getD 0 (0, 0)).2),
            (fun s2 _ => if s2 = 0 then (2 : ℚ) else 3) s 0
    ∧ block_messages_backwards 1 1 2 (fun _ _ => (1 : ℚ)/2)
        (fun s _ => if s = 0 then (2 : ℚ) else 3) [(0, 2)] (fun _ _ => (1 : ℚ)/4)
        = block_messages_backwards 1 1 2 (fun _ _ => (1 : ℚ)/2)
        (fun s _ => if s = 0 then (3 : ℚ) else 2) [(0, 2)] (fun _ _ => (1 : ℚ)/4)
    ∧ block_sample_forwards 1 1 2 (fun _ _ => (1 : ℚ)/2) (fun _ => (1 : ℚ))
        (fun s _ => if s = 0 then (2 : ℚ) else 3) [(0, 2)] (fun _ _ => (1 : ℚ)/4)
        (fun _ _ => 1) (fun _ _ => 1) (fun _ => (1 : ℚ)/2)
        = block_sample_forwards 1 1 2 (fun _ _ => (1 : ℚ)/2) (fun _ => (1 : ℚ))
        (fun s _ => if s = 0 then (3 : ℚ) else 2) [(0, 2)] (fun _ _ => (1 : ℚ)/4)
        (fun _ _ => 1) (fun _ _ => 1) (fun _ => (1 : ℚ)/2) :=
  block_aBl_none_and_aBBl_flow 1 1 2 (fun _ _ => (1 : ℚ)/2) (fun _ => (1 : ℚ))
    (fun s _ => if s = 0 then (2 : ℚ) else 3) (fun s _ => if s = 0 then (3 : ℚ) else 2)
    (fun _ _ => (1 : ℚ)/4) (fun _ _ => 1) (fun _ _ => 1) [(0, 2)] (fun _ => (1 : ℚ)/2) 0 0
    (by
      intro b2 k2 hb
      have hb0 : b2 = 0 := by omega
      subst hb0
      norm_num [block_get_aBl, likelihood_block, List.getD,
        Finset.prod_Ico_eq_prod_range, Finset.prod_range_succ])

end PyHSMM
